import Mathlib

/-!
Shallow embedding of the `ttv2fast2furious` companion-limits module
(`ttv2fast2furious/companion_limits.py`) and verification of the frozen
claims about it.

Modelling conventions:
* floating-point reals are modelled as `ℝ`; numpy arrays as `List`s;
* the external collaborators (the `erf` special function, the orbital
  perturbation basis functions `dt0_InnerPlanet` / `dt0_OuterPlanet`, the
  `np.linalg.lstsq` three-parameter solver, `scipy.optimize.minimize` and
  `scipy.optimize.brenth`) are abstract functions collected in an `Ext`
  structure; the code under verification never inspects their internals;
* runtime failures (assertion errors, index errors, the undefined-name
  error on line 73) are values of the `Err` type, and fallible code
  returns `Except Err _`;
* each operation additionally returns a trace of `Event`s recording, in
  order, which computations it actually performed, so that claims about
  what happens before a rejection are statable;
* the unbounded `while` loop that doubles the root bracket is given an
  explicit fuel parameter; running out of fuel is the `doublingDiverged`
  error (the reference code would loop forever in that situation).
-/

namespace CompanionLimits

noncomputable section

/-- Errors raised by the embedded code paths. -/
inductive Err
  | assertNonnegativeIndex
  | emptyData
  | indexOutOfBounds
  | nameUndefined
  | assertConfidenceLevel
  | doublingDiverged
  deriving DecidableEq

/-- Trace events, recording which computations were performed and in which
order.  `integration` marks one evaluation of the phase integral `q` by the
doubling loop; `rootFind cl M` marks one invocation of the bracketed root
finder on `[0, M]` for confidence level `cl`. -/
inductive Event
  | ephemerisFit
  | basisEval (inner : Bool) (count : ℕ)
  | lstsqSolve
  | constrainedMinimize
  | estimatorCall (phase : ℝ)
  | integration
  | rootFind (cl Mmax : ℝ)

/-- The external collaborators of the module, kept abstract.

* `erf` is `scipy.special.erf`.
* `dt0_InnerPlanet p ppert t0 tpert count` and `dt0_OuterPlanet ...` are the
  perturbation basis functions, returning one coefficient per transit index
  `0, ..., count - 1`.
* `lstsq3 rows y` is the least-squares solution returned by
  `np.linalg.lstsq(rows, y, rcond=-1)[0]` for the three-column system.
* `minimize f x0 A` is the minimum objective value `minsoln.fun` returned by
  `scipy.optimize.minimize(f, x0, constraints=[LinearConstraint(A, 0, np.infty)])`,
  i.e. minimization of `f` from `x0` subject to `0 <= A.dot(x) <= infinity`.
* `brenth f a b` is `scipy.optimize.brenth(f, a, b)`. -/
structure Ext where
  erf : ℝ → ℝ
  dt0_InnerPlanet : ℝ → ℝ → ℝ → ℝ → ℕ → List ℝ
  dt0_OuterPlanet : ℝ → ℝ → ℝ → ℝ → ℕ → List ℝ
  lstsq3 : List (List ℝ) → List ℝ → List ℝ
  minimize : (List ℝ → ℝ) → List ℝ → List (List ℝ) → ℝ
  brenth : (ℝ → ℝ) → ℝ → ℝ → ℝ

/-! ## Numeric helpers (numpy semantics) -/

/-- Euclidean inner product of two equal-length vectors (`a.dot(b)`). -/
def dot (a b : List ℝ) : ℝ := (List.zipWith (· * ·) a b).sum

/-- Matrix-vector product, one inner product per row. -/
def matVec (rows : List (List ℝ)) (x : List ℝ) : List ℝ := rows.map (fun r => dot r x)

/-- Closed-form normal-equations solution of the full-rank two-parameter
least-squares problem `argmin_x ‖x.1 • a + x.2 • b - y‖²`, as computed by
`np.linalg.lstsq` on the two-column matrix with columns `a` and `b`. -/
def lstsq2 (a b y : List ℝ) : ℝ × ℝ :=
  let saa := dot a a
  let sab := dot a b
  let sbb := dot b b
  let say := dot a y
  let sby := dot b y
  let det := saa * sbb - sab * sab
  ((sbb * say - sab * sby) / det, (saa * sby - sab * say) / det)

/-- Trapezoid sums over a list of `(x, y)` sample pairs. -/
def trapzPairs : List (ℝ × ℝ) → ℝ
  | p :: q :: rest => (q.1 - p.1) * (p.2 + q.2) / 2 + trapzPairs (q :: rest)
  | _ => 0

/-- Trapezoidal quadrature `np.trapz(y, x)` of samples `y` on grid `x`. -/
def trapz (y x : List ℝ) : ℝ := trapzPairs (x.zip y)

/-- Arithmetic mean, `np.mean`. -/
def mean (l : List ℝ) : ℝ := l.sum / l.length

/-- Uniform grid `np.linspace(a, b, n)` (endpoint included; `n = 1` gives `[a]`). -/
def linspace (a b : ℝ) (n : ℕ) : List ℝ :=
  if n ≤ 1 then (List.range n).map (fun _ => a)
  else (List.range n).map (fun i => a + (b - a) * i / ((n : ℝ) - 1))

/-- Pointwise combination of three lists (truncating at the shortest). -/
def zipWith3 (f : α → β → γ → δ) : List α → List β → List γ → List δ
  | a :: as, b :: bs, c :: cs => f a b c :: zipWith3 f as bs cs
  | _, _, _ => []

/-! ## The single-epoch estimator
`PerturberPeriodPhaseToBestSigmaChiSquared`, lines 8-75 of
`companion_limits.py`.  `TransitData` is the triple of aligned lists
`num` (transit indices, `ℤ` since negative indices must be representable),
`time` (transit times) and `unc` (timing uncertainties). -/

/-- Weighted observation vector `yvec = transit_time / transit_unc` (line 41). -/
def yvecOf (time unc : List ℝ) : List ℝ := List.zipWith (· / ·) time unc

/-- Maximum `np.max(transit_num)` of a nonempty integer list. -/
def listMaxZ : List ℤ → ℤ
  | [] => 0
  | n :: ns => ns.foldl max n

/-- Perturber epoch `Tpert = Ppert * phi / (2 * pi)` (line 43). -/
def TpertOf (Ppert phi : ℝ) : ℝ := Ppert * phi / (2 * Real.pi)

/-- The internally fitted ephemeris (lines 46-49): column matrix
`[ones/unc, num/unc]` against target `time/unc`, i.e. an
inverse-uncertainty-weighted linear regression of time on index. -/
def ephemeris_fit (num : List ℤ) (time unc : List ℝ) : ℝ × ℝ :=
  lstsq2 (unc.map (fun u => 1 / u))
    (List.zipWith (fun (n : ℤ) (u : ℝ) => (n : ℝ) / u) num unc)
    (yvecOf time unc)

/-- The ephemeris used by the estimator: the caller-supplied pair when
present, otherwise the internal fit (lines 46-51). -/
def planetEphemeris (num : List ℤ) (time unc : List ℝ) (pd : Option (ℝ × ℝ)) : ℝ × ℝ :=
  match pd with
  | none => ephemeris_fit num time unc
  | some tp => tp

/-- Basis-function selection and evaluation (lines 53-56): the inner-planet
family when `Ppert > P`, the outer-planet family otherwise, evaluated for
`Ntransits + 1` indices. -/
def basisOf (ext : Ext) (Ppert phi : ℝ) (num : List ℤ) (time unc : List ℝ)
    (pd : Option (ℝ × ℝ)) : List ℝ :=
  let T0P := planetEphemeris num time unc pd
  let N := (listMaxZ num).toNat
  if Ppert > T0P.2 then
    ext.dt0_InnerPlanet T0P.2 Ppert T0P.1 (TpertOf Ppert phi) (N + 1)
  else
    ext.dt0_OuterPlanet T0P.2 Ppert T0P.1 (TpertOf Ppert phi) (N + 1)

/-- Per-epoch matrix `bfMatrix` (line 58): rows `[1, i, basis i]` for
`i = 0, ..., N`. -/
def bfMatrixOf (basis : List ℝ) (N : ℕ) : List (List ℝ) :=
  (List.range (N + 1)).map (fun (i : ℕ) => [1, (i : ℝ), basis.getD i 0])

/-- Design matrix (line 60): one row per observation, the `bfMatrix` row of
the transit index of that observation, divided by its uncertainty. -/
def designMatrixOf (ext : Ext) (Ppert phi : ℝ) (num : List ℤ) (time unc : List ℝ)
    (pd : Option (ℝ × ℝ)) : List (List ℝ) :=
  let bf := bfMatrixOf (basisOf ext Ppert phi num time unc pd) (listMaxZ num).toNat
  List.zipWith (fun (n : ℤ) (u : ℝ) => (bf.getD n.toNat []).map (fun v => v / u)) num unc

/-- Entry `(j, k)` of `design_Matrix.T.dot(design_Matrix)`. -/
def ataEntry (rows : List (List ℝ)) (j k : ℕ) : ℝ :=
  (rows.map (fun r => r.getD j 0 * r.getD k 0)).sum

/-- The row index other than `j` among `0, 1, 2`, first of the two. -/
def othA (j : ℕ) : ℕ := if j = 0 then 1 else 0

/-- The row index other than `j` among `0, 1, 2`, second of the two. -/
def othB (j : ℕ) : ℕ := if j = 2 then 1 else 2

/-- Cofactor of entry `(j, k)` of a `3 × 3` matrix. -/
def cof3 (m : ℕ → ℕ → ℝ) (j k : ℕ) : ℝ :=
  (-1 : ℝ) ^ (j + k) *
    (m (othA j) (othA k) * m (othB j) (othB k) - m (othA j) (othB k) * m (othB j) (othA k))

/-- Determinant of a `3 × 3` matrix by expansion along the first row. -/
def det3 (m : ℕ → ℕ → ℝ) : ℝ :=
  m 0 0 * cof3 m 0 0 + m 0 1 * cof3 m 0 1 + m 0 2 * cof3 m 0 2

/-- Inverse of a `3 × 3` matrix, adjugate over determinant (`np.linalg.inv`
for the nonsingular case in scope). -/
def inv3 (m : ℕ → ℕ → ℝ) (j k : ℕ) : ℝ := cof3 m k j / det3 m

/-- Covariance matrix `np.linalg.inv(design_Matrix.T.dot(design_Matrix))`
(line 62). -/
def Sigma_matrix (rows : List (List ℝ)) : ℕ → ℕ → ℝ := inv3 (ataEntry rows)

/-- The weighted sum-of-squares objective
`(design_Matrix.dot(x) - yvec).dot(design_Matrix.dot(x) - yvec)` (line 66). -/
def wSSE (rows : List (List ℝ)) (y x : List ℝ) : ℝ :=
  dot (List.zipWith (· - ·) (matVec rows x) y) (List.zipWith (· - ·) (matVec rows x) y)

/-- Residual array of `np.linalg.lstsq` for a three-column system with
`Ndata` rows: the sum of squared residuals as a one-element array when the
system is overdetermined (`Ndata > 3`), and the empty array otherwise.
(numpy also returns an empty array in the rank-deficient case; a singular
design matrix is a numerical failure outside the scope of the spec, and the
full-rank case is assumed throughout.) -/
def lstsqResid (Ndata : ℕ) (sse : ℝ) : List ℝ := if 3 < Ndata then [sse] else []

/-- Constraint matrix `np.diag([0, 0, 1])` of the `LinearConstraint` used on
line 69; with bounds `0` and `np.infty` it constrains the third coefficient
(the perturbation amplitude) to be nonnegative. -/
def amplitudeConstraint : List (List ℝ) := [[0, 0, 0], [0, 0, 0], [0, 0, 1]]

/-- The single-epoch estimator (lines 8-75).  Returns the trace of
computations performed and either an error or the triple
`(best[2], sqrt(Sigma_matrix[2,2]), chisq)`.

Faithfulness notes:
* line 39 asserts all transit indices are nonnegative before anything else;
* `np.max` on an empty index array is a `ValueError` (`emptyData`);
* line 64 `chisq = chisq[0]` is an `IndexError` when the residual array of
  the least-squares solve is empty (`indexOutOfBounds`);
* lines 65-70: when the fitted amplitude `best[2]` is negative, the same
  weighted sum-of-squares objective is re-minimized from `best` with entry 2
  set to `0` subject to the amplitude-nonnegativity constraint, and only
  `chisq` is replaced by the constrained minimum;
* line 73 (the `full_output` branch) references the name `design_matrix`,
  but the local variable is `design_Matrix`; since Python resolves names at
  runtime and case-sensitively, reaching this branch raises `NameError`
  (`nameUndefined`) instead of returning the diagnostics dictionary. -/
def PerturberPeriodPhaseToBestSigmaChiSquared (ext : Ext) (Ppert phi : ℝ)
    (num : List ℤ) (time unc : List ℝ) (pd : Option (ℝ × ℝ)) (full_output : Bool) :
    List Event × Except Err (ℝ × ℝ × ℝ) :=
  if ¬ (∀ n ∈ num, 0 ≤ n) then ([], .error .assertNonnegativeIndex)
  else if num = [] then ([], .error .emptyData)
  else
    let yvec := yvecOf time unc
    let N := (listMaxZ num).toNat
    let T0P := planetEphemeris num time unc pd
    let ephEvs : List Event := match pd with
      | none => [.ephemerisFit]
      | some _ => []
    let rows := designMatrixOf ext Ppert phi num time unc pd
    let best := ext.lstsq3 rows yvec
    let evs := ephEvs ++ [.basisEval (decide (Ppert > T0P.2)) (N + 1), .lstsqSolve]
    match lstsqResid num.length (wSSE rows yvec best) with
    | [] => (evs, .error .indexOutOfBounds)
    | chisq0 :: _ =>
      let refit : List Event × ℝ :=
        if best.getD 2 0 < 0 then
          ([Event.constrainedMinimize],
            ext.minimize (fun x => wSSE rows yvec x) (best.set 2 0) amplitudeConstraint)
        else ([], chisq0)
      if full_output then (evs ++ refit.1, .error .nameUndefined)
      else (evs ++ refit.1, .ok (best.getD 2 0, Real.sqrt (Sigma_matrix rows 2 2), refit.2))

/-! ## The phase-marginalized limit solver
`q_integrand` (lines 77-99) and `UnseenPerturberMassUpperLimit`
(lines 101-150). -/

/-- Integrand `q_integrand` (lines 97-99). -/
def q_integrand (ext : Ext) (mup mbest sigma : ℝ) : ℝ :=
  let num := ext.erf (mbest / sigma / Real.sqrt 2) +
    ext.erf ((mup - mbest) / sigma / Real.sqrt 2)
  let denom := 1 + ext.erf (mbest / sigma / Real.sqrt 2)
  num / denom

/-- Denominator of `q_of_mup` (line 140): `trapz(np.exp(-0.5*dchisq), phases)`. -/
def q_denominator (dchisq phases : List ℝ) : ℝ :=
  trapz (dchisq.map (fun dc => Real.exp (-0.5 * dc))) phases

/-- Numerator of `q_of_mup` (line 140):
`trapz(q_integrand(mup, mbest, sigma) * np.exp(-0.5*dchisq), phases)`. -/
def q_numerator (ext : Ext) (mbest sigma dchisq phases : List ℝ) (mup : ℝ) : ℝ :=
  trapz (zipWith3 (fun mb s dc => q_integrand ext mup mb s * Real.exp (-0.5 * dc))
    mbest sigma dchisq) phases

/-- The marginal cumulative quantity `q_of_mup` (line 140). -/
def q_of_mup (ext : Ext) (mbest sigma dchisq phases : List ℝ) (mup : ℝ) : ℝ :=
  q_numerator ext mbest sigma dchisq phases mup / q_denominator dchisq phases

/-- Centered chi-squared `dchisq = chisq - np.mean(chisq)` (line 139). -/
def dchisqOf (chisq : List ℝ) : List ℝ := chisq.map (fun c => c - mean chisq)

/-- The `q` function built by `UnseenPerturberMassUpperLimit` from the
per-phase estimator outputs `rs = [(mbest, sigma, chisq), ...]`. -/
def gridQ (ext : Ext) (rs : List (ℝ × ℝ × ℝ)) (phases : List ℝ) : ℝ → ℝ :=
  q_of_mup ext (rs.map (·.1)) (rs.map (·.2.1)) (dchisqOf (rs.map (·.2.2))) phases

/-- The per-phase estimator evaluations of line 138, in phase order,
stopping at (and propagating) the first failure. -/
def estGridAux (ext : Ext) (Ppert : ℝ) (num : List ℤ) (time unc : List ℝ)
    (pd : Option (ℝ × ℝ)) : List ℝ → List Event × Except Err (List (ℝ × ℝ × ℝ))
  | [] => ([], .ok [])
  | phase :: rest =>
    match (PerturberPeriodPhaseToBestSigmaChiSquared ext Ppert phase num time unc pd false).2 with
    | .error e => ([Event.estimatorCall phase], .error e)
    | .ok r =>
      match estGridAux ext Ppert num time unc pd rest with
      | (evs, .error e) => (Event.estimatorCall phase :: evs, .error e)
      | (evs, .ok rs) => (Event.estimatorCall phase :: evs, .ok (r :: rs))

/-- The bracket-doubling `while` loop of lines 146-147, with explicit fuel
standing in for the unbounded iteration of the reference code.  Each test of the
loop condition evaluates the phase integral `q` once (`integration`). -/
def doubling (q : ℝ → ℝ) (cl : ℝ) : ℕ → ℝ → Option (List Event × ℝ)
  | 0, _ => none
  | fuel + 1, M =>
    if q M - cl < 0 then
      (doubling q cl fuel (2 * M)).map (fun r => (Event.integration :: r.1, r.2))
    else some ([Event.integration], M)

/-- The `for cl in confidence_levels` loop of lines 144-148.  The bracket
endpoint `M` is threaded through the loop (the reference code mutates
`Mmax0` in place, so later levels start from the previous endpoint).
Returns the accumulated events, the final bracket endpoint, and either the
computed limits in request order or the error raised. -/
def clLoop (q : ℝ → ℝ) (br : (ℝ → ℝ) → ℝ → ℝ → ℝ) (fuel : ℕ) :
    List ℝ → ℝ → List Event → List ℝ → List Event × ℝ × Except Err (List ℝ)
  | [], M, evs, acc => (evs, M, .ok acc.reverse)
  | cl :: rest, M, evs, acc =>
    if 1 ≤ cl then (evs, M, .error .assertConfidenceLevel)
    else
      match doubling q cl fuel M with
      | none => (evs, M, .error .doublingDiverged)
      | some dM =>
        clLoop q br fuel rest dM.2 (evs ++ dM.1 ++ [Event.rootFind cl dM.2])
          (br (fun x => q x - cl) 0 dM.2 :: acc)

/-- The limit solver `UnseenPerturberMassUpperLimit` (lines 101-150): evaluate the estimator
over the phase grid, build `q`, then for each confidence level check
`cl < 1`, double the bracket until `q(Mmax) - cl >= 0`, and root-find on
`[0, Mmax]`. -/
def UnseenPerturberMassUpperLimit (ext : Ext) (fuel : ℕ) (Ppert : ℝ)
    (confidence_levels : List ℝ) (num : List ℤ) (time unc : List ℝ)
    (Nphi : ℕ) (Mmax0 : ℝ) (pd : Option (ℝ × ℝ)) :
    List Event × Except Err (List ℝ) :=
  let phases := linspace (-Real.pi) Real.pi Nphi
  match estGridAux ext Ppert num time unc pd phases with
  | (gevs, .error e) => (gevs, .error e)
  | (gevs, .ok rs) =>
    let lp := clLoop (gridQ ext rs phases) ext.brenth fuel confidence_levels Mmax0 [] []
    (gevs ++ lp.1, lp.2.2)

/-! ## Concrete collaborator instantiations used by the witnesses -/

/-- A family of concrete instantiations of the external collaborators:
`erfF` is the erf stand-in, `basisF` the outer-planet basis family,
`bestF` the constant answer of the three-column least-squares solver and
`br` the root finder. -/
def extOf (erfF : ℝ → ℝ) (basisF : ℕ → List ℝ) (bestF : List ℝ)
    (br : (ℝ → ℝ) → ℝ → ℝ → ℝ) : Ext where
  erf := erfF
  dt0_InnerPlanet := fun _ _ _ _ _ => []
  dt0_OuterPlanet := fun _ _ _ _ k => basisF k
  lstsq3 := fun _ _ => bestF
  minimize := fun _ _ _ => 0
  brenth := br

/-- The simplest concrete collaborator instantiation. -/
def extTriv : Ext := extOf (fun _ => 0) (fun _ => []) [] (fun _ _ _ => 0)

/-! ## Claim C6 -/

/-- Claim C6: an observation set containing a negative transit index
anywhere is rejected by the estimator before any fit is attempted: the
trace is empty (no ephemeris regression, no basis-function evaluation, no
least-squares solve) and the result is the assertion error of line 39. -/
theorem estimator_rejects_negative_index (ext : Ext) (Ppert phi : ℝ)
    (num : List ℤ) (time unc : List ℝ) (pd : Option (ℝ × ℝ)) (full_output : Bool)
    (hneg : ∃ n ∈ num, n < 0) :
    PerturberPeriodPhaseToBestSigmaChiSquared ext Ppert phi num time unc pd full_output =
      ([], .error .assertNonnegativeIndex) := by
  obtain ⟨n, hn, hlt⟩ := hneg
  unfold PerturberPeriodPhaseToBestSigmaChiSquared
  rw [if_pos]
  intro h
  exact absurd (h n hn) (not_le.mpr hlt)

/-- Witness for C6 at the concrete input of the rejection scenario of the spec
(a transit index of `-1` in the observation set). -/
theorem estimator_rejects_negative_index_witness :
    PerturberPeriodPhaseToBestSigmaChiSquared extTriv 1 0 [-1, 0] [0, 0] [1, 1] none false =
      ([], .error .assertNonnegativeIndex) :=
  estimator_rejects_negative_index extTriv 1 0 [-1, 0] [0, 0] [1, 1] none false
    ⟨-1, by simp, by norm_num⟩

/-! ## Claim C10 -/

/-- Claim C10: when the number of observations equals the number of fitted
parameters (three), the residual array of the least-squares solve is empty,
so the extraction `chisq = chisq[0]` on line 64 is an out-of-bounds access:
the estimator errors instead of returning a zero chi-squared. -/
theorem estimator_three_observations_index_error (ext : Ext) (Ppert phi : ℝ)
    (num : List ℤ) (time unc : List ℝ) (pd : Option (ℝ × ℝ)) (full_output : Bool)
    (hpos : ∀ n ∈ num, 0 ≤ n) (hlen : num.length = 3) :
    (∀ sse : ℝ, lstsqResid num.length sse = []) ∧
    (PerturberPeriodPhaseToBestSigmaChiSquared ext Ppert phi num time unc pd full_output).2 =
      .error .indexOutOfBounds := by
  have h2 : num ≠ [] := by
    intro h
    rw [h] at hlen
    exact absurd hlen (by norm_num)
  constructor
  · intro sse
    simp [lstsqResid, hlen]
  · unfold PerturberPeriodPhaseToBestSigmaChiSquared
    rw [if_neg (not_not_intro hpos), if_neg h2]
    simp [lstsqResid, hlen]

/-- Witness for C10: three observations, full column rank, the estimator
raises the index error. -/
theorem estimator_three_observations_index_error_witness :
    (∀ sse : ℝ, lstsqResid ([0, 1, 2] : List ℤ).length sse = []) ∧
    (PerturberPeriodPhaseToBestSigmaChiSquared extTriv 1 0 [0, 1, 2] [0, 0, 1] [1, 1, 1]
      (some (0, 1)) false).2 = .error .indexOutOfBounds :=
  estimator_three_observations_index_error extTriv 1 0 [0, 1, 2] [0, 0, 1] [1, 1, 1]
    (some (0, 1)) false (by decide) (by simp)

/-! ## Claim C4 -/

/-- Claim C4 (a bug in the code): line 73 of the source references the name
design_matrix, but the local variable is design_Matrix, so every estimator
call with `full_output` set that reaches the final return raises a
`NameError` instead of returning the promised diagnostics bundle. -/
theorem estimator_full_output_name_error (ext : Ext) (Ppert phi : ℝ)
    (num : List ℤ) (time unc : List ℝ) (pd : Option (ℝ × ℝ))
    (hpos : ∀ n ∈ num, 0 ≤ n) (hlen : 3 < num.length) :
    (PerturberPeriodPhaseToBestSigmaChiSquared ext Ppert phi num time unc pd true).2 =
      .error .nameUndefined := by
  have h2 : num ≠ [] := by
    intro h
    rw [h] at hlen
    exact absurd hlen (by norm_num)
  unfold PerturberPeriodPhaseToBestSigmaChiSquared
  rw [if_neg (not_not_intro hpos), if_neg h2]
  simp only [lstsqResid, if_pos hlen]
  split <;> simp_all

/-- Witness for C4 at a concrete valid input with `full_output` requested. -/
theorem estimator_full_output_name_error_witness :
    (PerturberPeriodPhaseToBestSigmaChiSquared extTriv 1 0 [0, 1, 2, 3] [0, 0, 0, 0]
      [1, 1, 1, 1] (some (0, 1)) true).2 = .error .nameUndefined :=
  estimator_full_output_name_error extTriv 1 0 [0, 1, 2, 3] [0, 0, 0, 0] [1, 1, 1, 1]
    (some (0, 1)) (by decide) (by norm_num)

/-! ## Claim C1 -/

/-- Claim C1: when the unconstrained least-squares amplitude `best[2]` is
negative, the estimator re-minimizes the same weighted sum-of-squares
objective, starting from the unconstrained solution with the amplitude
entry clamped to zero, subject to the amplitude-nonnegativity constraint
(`np.diag([0,0,1])` with bounds `0` and infinity), and only the returned
chi-squared is replaced by the constrained minimum: the returned amplitude
is still the (negative) unconstrained `best[2]` and the returned sigma is
still the square root of the unconstrained covariance entry `(2,2)`. -/
theorem estimator_negative_amplitude_refit (ext : Ext) (Ppert phi : ℝ)
    (num : List ℤ) (time unc : List ℝ) (pd : Option (ℝ × ℝ))
    (hpos : ∀ n ∈ num, 0 ≤ n) (hlen : 3 < num.length)
    (hneg : (ext.lstsq3 (designMatrixOf ext Ppert phi num time unc pd)
      (yvecOf time unc)).getD 2 0 < 0) :
    Event.constrainedMinimize ∈
      (PerturberPeriodPhaseToBestSigmaChiSquared ext Ppert phi num time unc pd false).1 ∧
    (PerturberPeriodPhaseToBestSigmaChiSquared ext Ppert phi num time unc pd false).2 =
      .ok ((ext.lstsq3 (designMatrixOf ext Ppert phi num time unc pd) (yvecOf time unc)).getD 2 0,
        Real.sqrt (Sigma_matrix (designMatrixOf ext Ppert phi num time unc pd) 2 2),
        ext.minimize
          (fun x => wSSE (designMatrixOf ext Ppert phi num time unc pd) (yvecOf time unc) x)
          ((ext.lstsq3 (designMatrixOf ext Ppert phi num time unc pd) (yvecOf time unc)).set 2 0)
          amplitudeConstraint) := by
  have h2 : num ≠ [] := by
    intro h
    rw [h] at hlen
    exact absurd hlen (by norm_num)
  unfold PerturberPeriodPhaseToBestSigmaChiSquared
  rw [if_neg (not_not_intro hpos), if_neg h2]
  simp only [lstsqResid, if_pos hlen, if_pos hneg]
  simp

/-- Witness for C1: a solver instantiation returning a negative amplitude. -/
def extNegAmp : Ext := extOf (fun _ => 0) (fun k => List.replicate k 0) [0, 0, -1] (fun _ _ _ => 0)

/-- Witness for C1 at a concrete input whose unconstrained amplitude is
negative. -/
theorem estimator_negative_amplitude_refit_witness :
    Event.constrainedMinimize ∈
      (PerturberPeriodPhaseToBestSigmaChiSquared extNegAmp 1 0 [0, 1, 2, 3, 4] [0, 0, 0, 0, 0]
        [1, 1, 1, 1, 1] (some (0, 1)) false).1 ∧
    (PerturberPeriodPhaseToBestSigmaChiSquared extNegAmp 1 0 [0, 1, 2, 3, 4] [0, 0, 0, 0, 0]
        [1, 1, 1, 1, 1] (some (0, 1)) false).2 =
      .ok ((extNegAmp.lstsq3 (designMatrixOf extNegAmp 1 0 [0, 1, 2, 3, 4] [0, 0, 0, 0, 0]
          [1, 1, 1, 1, 1] (some (0, 1))) (yvecOf [0, 0, 0, 0, 0] [1, 1, 1, 1, 1])).getD 2 0,
        Real.sqrt (Sigma_matrix (designMatrixOf extNegAmp 1 0 [0, 1, 2, 3, 4] [0, 0, 0, 0, 0]
          [1, 1, 1, 1, 1] (some (0, 1))) 2 2),
        extNegAmp.minimize
          (fun x => wSSE (designMatrixOf extNegAmp 1 0 [0, 1, 2, 3, 4] [0, 0, 0, 0, 0]
            [1, 1, 1, 1, 1] (some (0, 1))) (yvecOf [0, 0, 0, 0, 0] [1, 1, 1, 1, 1]) x)
          ((extNegAmp.lstsq3 (designMatrixOf extNegAmp 1 0 [0, 1, 2, 3, 4] [0, 0, 0, 0, 0]
            [1, 1, 1, 1, 1] (some (0, 1))) (yvecOf [0, 0, 0, 0, 0] [1, 1, 1, 1, 1])).set 2 0)
          amplitudeConstraint) :=
  estimator_negative_amplitude_refit extNegAmp 1 0 [0, 1, 2, 3, 4] [0, 0, 0, 0, 0]
    [1, 1, 1, 1, 1] (some (0, 1)) (by decide) (by norm_num)
    (by norm_num [extNegAmp, extOf])

/-! ## Claim C7 -/

/-- Claim C7: in every estimator call that passes the input checks, the
perturbation basis is evaluated exactly once, for exactly the `N + 1`
indices `0 .. N` where `N` is the maximum transit index present in the
data, and the family is selected by comparing the trial perturber period
with the planet period: `Ppert > P` selects the inner-planet basis and
otherwise (including exact equality) the outer-planet basis is used. -/
theorem estimator_basis_evaluation (ext : Ext) (Ppert phi : ℝ)
    (num : List ℤ) (time unc : List ℝ) (pd : Option (ℝ × ℝ)) (full_output : Bool)
    (hpos : ∀ n ∈ num, 0 ≤ n) (hne : num ≠ []) :
    (∀ b k, Event.basisEval b k ∈
        (PerturberPeriodPhaseToBestSigmaChiSquared ext Ppert phi num time unc pd full_output).1 ↔
      (b = decide (Ppert > (planetEphemeris num time unc pd).2) ∧
        k = (listMaxZ num).toNat + 1)) ∧
    (Ppert > (planetEphemeris num time unc pd).2 →
      basisOf ext Ppert phi num time unc pd =
        ext.dt0_InnerPlanet (planetEphemeris num time unc pd).2 Ppert
          (planetEphemeris num time unc pd).1 (TpertOf Ppert phi)
          ((listMaxZ num).toNat + 1)) ∧
    (¬ Ppert > (planetEphemeris num time unc pd).2 →
      basisOf ext Ppert phi num time unc pd =
        ext.dt0_OuterPlanet (planetEphemeris num time unc pd).2 Ppert
          (planetEphemeris num time unc pd).1 (TpertOf Ppert phi)
          ((listMaxZ num).toNat + 1)) := by
  refine ⟨?_, ?_, ?_⟩
  · intro b k
    unfold PerturberPeriodPhaseToBestSigmaChiSquared
    rw [if_neg (not_not_intro hpos), if_neg hne]
    simp only [lstsqResid]
    repeat' split
    all_goals simp_all [planetEphemeris]
  · intro h
    unfold basisOf
    rw [if_pos h]
  · intro h
    unfold basisOf
    rw [if_neg h]

/-- Witness for C7 at a concrete input. -/
theorem estimator_basis_evaluation_witness :
    (∀ b k, Event.basisEval b k ∈
        (PerturberPeriodPhaseToBestSigmaChiSquared extTriv 1 0 [0, 3] [0, 0] [1, 1]
          (some (0, 1)) false).1 ↔
      (b = decide ((1 : ℝ) > (planetEphemeris [0, 3] [0, 0] [1, 1] (some (0, 1))).2) ∧
        k = (listMaxZ [0, 3]).toNat + 1)) ∧
    ((1 : ℝ) > (planetEphemeris [0, 3] [0, 0] [1, 1] (some (0, 1))).2 →
      basisOf extTriv 1 0 [0, 3] [0, 0] [1, 1] (some (0, 1)) =
        extTriv.dt0_InnerPlanet (planetEphemeris [0, 3] [0, 0] [1, 1] (some (0, 1))).2 1
          (planetEphemeris [0, 3] [0, 0] [1, 1] (some (0, 1))).1 (TpertOf 1 0)
          ((listMaxZ [0, 3]).toNat + 1)) ∧
    (¬ (1 : ℝ) > (planetEphemeris [0, 3] [0, 0] [1, 1] (some (0, 1))).2 →
      basisOf extTriv 1 0 [0, 3] [0, 0] [1, 1] (some (0, 1)) =
        extTriv.dt0_OuterPlanet (planetEphemeris [0, 3] [0, 0] [1, 1] (some (0, 1))).2 1
          (planetEphemeris [0, 3] [0, 0] [1, 1] (some (0, 1))).1 (TpertOf 1 0)
          ((listMaxZ [0, 3]).toNat + 1)) :=
  estimator_basis_evaluation extTriv 1 0 [0, 3] [0, 0] [1, 1] (some (0, 1)) false
    (by decide) (by simp)

/-! ## Claim C2 -/

/-- The ephemeris regression as the spec describes it: an unweighted linear
least-squares fit of transit time on transit index (written from the words
of the spec, for comparison with the implementation side `ephemeris_fit`). -/
def ephemeris_unweighted (num : List ℤ) (time : List ℝ) : ℝ × ℝ :=
  lstsq2 (num.map (fun _ => 1)) (num.map (fun (n : ℤ) => (n : ℝ))) time

lemma dot_map_div (a b : List ℝ) (c : ℝ) :
    dot (a.map (fun x => x / c)) (b.map (fun x => x / c)) = dot a b / (c * c) := by
  induction a generalizing b with
  | nil => simp [dot]
  | cons x xs ih =>
    cases b with
    | nil => simp [dot]
    | cons y ys =>
      have h := ih ys
      simp only [dot, List.map_cons, List.zipWith_cons_cons, List.sum_cons] at h ⊢
      rw [h]
      ring

lemma div_div_cancel_sq (N D k : ℝ) (hk : k ≠ 0) : N / k / (D / k) = N / D := by
  rcases eq_or_ne D 0 with h | h
  · simp [h]
  · field_simp

/-- Rescaling all three input vectors by a common factor does not change the
two-parameter least-squares solution. -/
lemma lstsq2_scale (a b y : List ℝ) (c : ℝ) (hc : c ≠ 0) :
    lstsq2 (a.map (fun x => x / c)) (b.map (fun x => x / c)) (y.map (fun x => x / c)) =
      lstsq2 a b y := by
  have hc2 : c * c ≠ 0 := mul_ne_zero hc hc
  have hstep : ∀ p q r s : ℝ,
      p / (c * c) * (q / (c * c)) - r / (c * c) * (s / (c * c)) =
        (p * q - r * s) / (c * c * (c * c)) := by
    intro p q r s
    ring
  simp only [lstsq2, dot_map_div]
  rw [hstep, hstep, hstep]
  exact congrArg₂ Prod.mk (div_div_cancel_sq _ _ _ (mul_ne_zero hc2 hc2))
    (div_div_cancel_sq _ _ _ (mul_ne_zero hc2 hc2))

lemma zipWith_replicate_right (f : α → β → γ) (xs : List α) (c : β) :
    List.zipWith f xs (List.replicate xs.length c) = xs.map (fun x => f x c) := by
  induction xs with
  | nil => simp
  | cons x xs ih => simp [List.replicate_succ, ih]

/-- Counterexample to claim C2: the internally computed ephemeris divides
the regression columns and target by the per-observation uncertainties
(lines 46-49), so with unequal uncertainties it differs from the unweighted
regression of time on index — the timing uncertainties do play a role. -/
theorem ephemeris_weighting_counterexample :
    planetEphemeris [0, 1, 2] [0, 0, 1] [1, 1, 10] none ≠
      ephemeris_unweighted [0, 1, 2] [0, 0, 1] := by
  intro h
  have h1 := congrArg Prod.fst h
  simp only [planetEphemeris, ephemeris_fit, ephemeris_unweighted, lstsq2, dot, yvecOf,
    List.map_cons, List.map_nil, List.zipWith_cons_cons, List.zipWith_nil_right,
    List.sum_cons, List.sum_nil] at h1
  norm_num at h1

/-- Claim C2 amended: the internally computed ephemeris is the
inverse-uncertainty-weighted least-squares regression of time on index
(regression columns and target divided by the uncertainty of each
observation), so it coincides with the unweighted regression exactly when all
uncertainties are equal (to any nonzero constant). -/
theorem ephemeris_equal_uncertainties (num : List ℤ) (time : List ℝ) (c : ℝ)
    (hc : c ≠ 0) (hlen : time.length = num.length) :
    planetEphemeris num time (List.replicate num.length c) none =
      ephemeris_unweighted num time := by
  have hpe : planetEphemeris num time (List.replicate num.length c) none =
      ephemeris_fit num time (List.replicate num.length c) := rfl
  rw [hpe]
  unfold ephemeris_fit yvecOf ephemeris_unweighted
  have e1 : (List.replicate num.length c).map (fun u => 1 / u) =
      (num.map (fun _ => (1 : ℝ))).map (fun x => x / c) := by
    simp [List.map_const']
  have e2 : List.zipWith (fun (n : ℤ) (u : ℝ) => (n : ℝ) / u) num (List.replicate num.length c) =
      (num.map (fun n => ((n : ℤ) : ℝ))).map (fun x => x / c) := by
    rw [zipWith_replicate_right]
    simp [List.map_map, Function.comp]
  have e3 : List.zipWith (· / ·) time (List.replicate num.length c) =
      time.map (fun x => x / c) := by
    rw [← hlen, zipWith_replicate_right]
  rw [e1, e2, e3, lstsq2_scale _ _ _ c hc]

/-- Witness for the amended C2 at a concrete input with equal uncertainties. -/
theorem ephemeris_equal_uncertainties_witness :
    planetEphemeris [0, 1] [0, 3] (List.replicate ([0, 1] : List ℤ).length 5) none =
      ephemeris_unweighted [0, 1] [0, 3] :=
  ephemeris_equal_uncertainties [0, 1] [0, 3] 5 (by norm_num) (by simp)

/-! ## Claim C8 -/

/-- The description the spec gives of the marginal cumulative quantity
(section 4.2, steps 3-4), written from the words of the spec for comparison with the
implementation: per-phase integrand
`[erf(best/sigma/sqrt 2) + erf((m-best)/sigma/sqrt 2)] / [1 + erf(best/sigma/sqrt 2)]`,
weight `exp(-dchisq/2)` with `dchisq = chisq - mean(chisq)` over the phase
grid, and the ratio of the trapezoidal integral of integrand times weight
to the trapezoidal integral of the weight alone. -/
def q_spec (ext : Ext) (mbest sigma chisq phases : List ℝ) (m : ℝ) : ℝ :=
  let dchisq := chisq.map (fun c => c - mean chisq)
  let weight := dchisq.map (fun dc => Real.exp (-(dc / 2)))
  trapz (zipWith3 (fun mb s w =>
    (ext.erf (mb / s / Real.sqrt 2) + ext.erf ((m - mb) / s / Real.sqrt 2)) /
      (1 + ext.erf (mb / s / Real.sqrt 2)) * w) mbest sigma weight) phases /
    trapz weight phases

lemma zipWith3_map_third (f : α → β → γ → δ) (g : ε → γ) :
    ∀ (as : List α) (bs : List β) (cs : List ε),
      zipWith3 f as bs (cs.map g) = zipWith3 (fun a b c => f a b (g c)) as bs cs := by
  intro as
  induction as with
  | nil => intro bs cs; cases bs <;> cases cs <;> simp [zipWith3]
  | cons a as ih => intro bs cs; cases bs <;> cases cs <;> simp [zipWith3, ih]

/-- Claim C8: the marginal cumulative quantity `q` built by the limit
solver from the per-phase estimator outputs equals the formula of the spec: the
ratio of the trapezoidal phase integral of
`[erf(best/sigma/sqrt 2) + erf((m-best)/sigma/sqrt 2)] / [1 + erf(best/sigma/sqrt 2)]`
weighted by `exp(-dchisq/2)` to the trapezoidal phase integral of
`exp(-dchisq/2)`, where `dchisq` is the per-phase chi-squared minus the
mean chi-squared over the phase grid. -/
theorem gridQ_eq_spec (ext : Ext) (rs : List (ℝ × ℝ × ℝ)) (phases : List ℝ) (m : ℝ) :
    gridQ ext rs phases m =
      q_spec ext (rs.map (·.1)) (rs.map (·.2.1)) (rs.map (·.2.2)) phases m := by
  have harg : ∀ dc : ℝ, -0.5 * dc = -(dc / 2) := by
    intro dc
    ring
  unfold gridQ q_of_mup q_numerator q_denominator dchisqOf q_spec
  simp only [zipWith3_map_third, q_integrand, harg]

/-! ## Trace lemmas for the limit solver -/

lemma estGridAux_events (ext : Ext) (Ppert : ℝ) (num : List ℤ) (time unc : List ℝ)
    (pd : Option (ℝ × ℝ)) :
    ∀ (phases : List ℝ) (e : Event), e ∈ (estGridAux ext Ppert num time unc pd phases).1 →
      ∃ phase, e = Event.estimatorCall phase := by
  intro phases
  induction phases with
  | nil =>
    intro e he
    simp [estGridAux] at he
  | cons p rest ih =>
    intro e he
    unfold estGridAux at he
    split at he
    · simp at he
      exact ⟨p, he⟩
    · split at he
      · rename_i evs err heq
        simp only [List.mem_cons] at he
        rcases he with he | he
        · exact ⟨p, he⟩
        · have h1 : evs = (estGridAux ext Ppert num time unc pd rest).1 :=
            (congrArg Prod.fst heq).symm
          exact ih e (h1 ▸ he)
      · rename_i evs rrs heq
        simp only [List.mem_cons] at he
        rcases he with he | he
        · exact ⟨p, he⟩
        · have h1 : evs = (estGridAux ext Ppert num time unc pd rest).1 :=
            (congrArg Prod.fst heq).symm
          exact ih e (h1 ▸ he)

lemma doubling_some (q : ℝ → ℝ) (cl : ℝ) :
    ∀ (fuel : ℕ) (M : ℝ) (dM : List Event × ℝ), doubling q cl fuel M = some dM →
      cl ≤ q dM.2 ∧ ∀ e ∈ dM.1, e = Event.integration := by
  intro fuel
  induction fuel with
  | zero =>
    intro M dM h
    simp [doubling] at h
  | succ fuel ih =>
    intro M dM h
    rw [doubling] at h
    split at h
    · rcases hrec : doubling q cl fuel (2 * M) with _ | dM'
      · rw [hrec] at h
        simp at h
      · rw [hrec] at h
        simp only [Option.map_some'] at h
        obtain ⟨hq, hall⟩ := ih (2 * M) dM' hrec
        injection h with h
        subst h
        refine ⟨hq, ?_⟩
        intro e he
        rcases List.mem_cons.mp he with he | he
        · exact he
        · exact hall e he
    · rename_i hcond
      injection h with h
      subst h
      refine ⟨by simpa using not_lt.mp hcond, ?_⟩
      intro e he
      simpa using he

lemma clLoop_rootFind_mem (q : ℝ → ℝ) (br : (ℝ → ℝ) → ℝ → ℝ → ℝ) (fuel : ℕ)
    (c M' : ℝ) :
    ∀ (cls : List ℝ) (M : ℝ) (evs : List Event) (acc : List ℝ),
      Event.rootFind c M' ∈ (clLoop q br fuel cls M evs acc).1 →
        Event.rootFind c M' ∈ evs ∨ c ≤ q M' := by
  intro cls
  induction cls with
  | nil =>
    intro M evs acc h
    simp only [clLoop] at h
    exact Or.inl h
  | cons cl rest ih =>
    intro M evs acc h
    rw [clLoop] at h
    split at h
    · exact Or.inl h
    · split at h
      · exact Or.inl h
      · rename_i dM hdM
        rcases ih _ _ _ h with hmem | hle
        · simp only [List.mem_append, List.mem_singleton] at hmem
          rcases hmem with (hmem | hmem) | hmem
          · exact Or.inl hmem
          · obtain ⟨_, hall⟩ := doubling_some q cl fuel M dM hdM
            exact absurd (hall _ hmem) (by simp)
          · obtain ⟨hq, _⟩ := doubling_some q cl fuel M dM hdM
            injection hmem with h1 h2
            subst h1
            subst h2
            exact Or.inr hq
        · exact Or.inr hle

lemma clLoop_append_invalid (q : ℝ → ℝ) (br : (ℝ → ℝ) → ℝ → ℝ → ℝ) (fuel : ℕ)
    (cl0 : ℝ) (h0 : 1 ≤ cl0) (post : List ℝ) :
    ∀ (pre : List ℝ) (M : ℝ) (evs : List Event) (acc : List ℝ) (evs' : List Event)
      (M' : ℝ) (ms : List ℝ),
      clLoop q br fuel pre M evs acc = (evs', M', .ok ms) →
        clLoop q br fuel (pre ++ cl0 :: post) M evs acc =
          (evs', M', .error .assertConfidenceLevel) := by
  intro pre
  induction pre with
  | nil =>
    intro M evs acc evs' M' ms h
    simp only [clLoop, Prod.mk.injEq] at h
    obtain ⟨rfl, rfl, -⟩ := h
    rw [List.nil_append]
    simp only [clLoop]
    rw [if_pos h0]
  | cons cl rest ih =>
    intro M evs acc evs' M' ms h
    rw [List.cons_append]
    rw [clLoop] at h ⊢
    split at h
    · simp at h
    · split at h
      · simp at h
      · rw [if_neg (show ¬1 ≤ cl by assumption)]
        exact ih _ _ _ _ _ _ h

/-! ## q at zero -/

lemma trapzPairs_zero : ∀ ps : List (ℝ × ℝ), (∀ p ∈ ps, p.2 = 0) → trapzPairs ps = 0 := by
  intro ps
  induction ps with
  | nil =>
    intro h
    simp [trapzPairs]
  | cons p rest ih =>
    intro h
    cases rest with
    | nil => simp [trapzPairs]
    | cons r rest' =>
      have hp : p.2 = 0 := h p (by simp)
      have hr : r.2 = 0 := h r (by simp)
      rw [trapzPairs, hp, hr, ih (fun s hs => h s (List.mem_cons_of_mem _ hs))]
      ring

lemma trapz_zeros (y x : List ℝ) (hy : ∀ v ∈ y, v = 0) : trapz y x = 0 := by
  unfold trapz
  apply trapzPairs_zero
  intro p hp
  exact hy p.2 (List.of_mem_zip hp).2

lemma mem_zipWith3 {f : α → β → γ → δ} :
    ∀ {as : List α} {bs : List β} {cs : List γ} {d : δ}, d ∈ zipWith3 f as bs cs →
      ∃ a b c, d = f a b c := by
  intro as
  induction as with
  | nil =>
    intro bs cs d h
    cases bs <;> cases cs <;> simp [zipWith3] at h
  | cons a as ih =>
    intro bs cs d h
    cases bs with
    | nil => simp [zipWith3] at h
    | cons b bs =>
      cases cs with
      | nil => simp [zipWith3] at h
      | cons c cs =>
        rw [zipWith3] at h
        rcases List.mem_cons.mp h with h | h
        · exact ⟨a, b, c, h⟩
        · exact ih h

lemma q_integrand_zero (ext : Ext) (herf : ∀ x, ext.erf (-x) = -ext.erf x) (mb s : ℝ) :
    q_integrand ext 0 mb s = 0 := by
  unfold q_integrand
  have harg : (0 - mb) / s / Real.sqrt 2 = -(mb / s / Real.sqrt 2) := by
    ring
  rw [harg, herf]
  simp

lemma q_of_mup_zero (ext : Ext) (mbest sigma dchisq phases : List ℝ)
    (herf : ∀ x, ext.erf (-x) = -ext.erf x) :
    q_of_mup ext mbest sigma dchisq phases 0 = 0 := by
  unfold q_of_mup q_numerator
  rw [trapz_zeros, zero_div]
  intro v hv
  obtain ⟨mb, s, dc, rfl⟩ := mem_zipWith3 hv
  rw [q_integrand_zero ext herf, zero_mul]

/-! ## Claim C5 -/

/-- Claim C5: whenever the limit solver invokes the bracketed root finder
for a confidence level `cl` with upper endpoint `Mmax`, the doubling loop
has already established `q(Mmax) >= cl`; since `q(0) = 0` (erf being odd)
and `0 <= cl`, the interval `[0, Mmax]` is a valid bracket for the equation
`q(m) = cl` whenever root-finding starts. -/
theorem rootfind_bracket_valid (ext : Ext) (fuel : ℕ) (Ppert : ℝ)
    (confidence_levels : List ℝ) (num : List ℤ) (time unc : List ℝ) (Nphi : ℕ)
    (Mmax0 : ℝ) (pd : Option (ℝ × ℝ)) (gevs : List Event) (rs : List (ℝ × ℝ × ℝ))
    (cl M' : ℝ)
    (hgrid : estGridAux ext Ppert num time unc pd (linspace (-Real.pi) Real.pi Nphi) =
      (gevs, .ok rs))
    (hmem : Event.rootFind cl M' ∈
      (UnseenPerturberMassUpperLimit ext fuel Ppert confidence_levels num time unc Nphi
        Mmax0 pd).1)
    (hcl : 0 ≤ cl) (herf : ∀ x, ext.erf (-x) = -ext.erf x) :
    gridQ ext rs (linspace (-Real.pi) Real.pi Nphi) 0 = 0 ∧
    gridQ ext rs (linspace (-Real.pi) Real.pi Nphi) 0 ≤ cl ∧
    cl ≤ gridQ ext rs (linspace (-Real.pi) Real.pi Nphi) M' := by
  have hq0 : gridQ ext rs (linspace (-Real.pi) Real.pi Nphi) 0 = 0 :=
    q_of_mup_zero ext _ _ _ _ herf
  refine ⟨hq0, by rw [hq0]; exact hcl, ?_⟩
  unfold UnseenPerturberMassUpperLimit at hmem
  dsimp only at hmem
  rw [hgrid] at hmem
  dsimp only at hmem
  rw [List.mem_append] at hmem
  rcases hmem with hmem | hmem
  · obtain ⟨phase, hphase⟩ := estGridAux_events ext Ppert num time unc pd _ _
      (by rw [hgrid]; exact hmem)
    exact absurd hphase (by simp)
  · rcases clLoop_rootFind_mem _ _ _ _ _ _ _ _ _ hmem with h | h
    · simp at h
    · exact h

/-! ## Concrete solver runs for the solver witnesses -/

/-- Observation set for the solver runs: five observations, all of transit
index zero, unit uncertainties, zero observed times. -/
def numW : List ℤ := [0, 0, 0, 0, 0]

def timeW : List ℝ := [0, 0, 0, 0, 0]

def uncW : List ℝ := [1, 1, 1, 1, 1]

/-- Solver-run collaborators: a zero basis function, a fixed least-squares
answer with unit amplitude, and a root finder returning zero. -/
def extRun (erfF : ℝ → ℝ) : Ext :=
  extOf erfF (fun k => List.replicate k 0) [0, 0, 1] (fun _ _ _ => 0)

lemma estimator_runW (erfF : ℝ → ℝ) (phase : ℝ) :
    PerturberPeriodPhaseToBestSigmaChiSquared (extRun erfF) 1 phase numW timeW uncW
      (some (0, 1)) false =
      ([Event.basisEval false 1, Event.lstsqSolve], .ok (1, 0, 0)) := by
  have hdec : decide ((1 : ℝ) > 1) = false := by norm_num
  norm_num [PerturberPeriodPhaseToBestSigmaChiSquared, numW, timeW, uncW, extRun, extOf,
    planetEphemeris, designMatrixOf, basisOf, bfMatrixOf, yvecOf, listMaxZ, lstsqResid,
    wSSE, matVec, dot, Sigma_matrix, inv3, cof3, det3, ataEntry, othA, othB, hdec, TpertOf]
  intro h
  simp at h

lemma linspace_two : linspace (-Real.pi) Real.pi 2 = [-Real.pi, Real.pi] := by
  have hrange : List.range 2 = [0, 1] := rfl
  norm_num [linspace, hrange]

lemma estGrid_runW (erfF : ℝ → ℝ) :
    estGridAux (extRun erfF) 1 numW timeW uncW (some (0, 1)) [-Real.pi, Real.pi] =
      ([Event.estimatorCall (-Real.pi), Event.estimatorCall Real.pi],
        .ok [(1, 0, 0), (1, 0, 0)]) := by
  simp [estGridAux, estimator_runW]

lemma gridQ_one (m : ℝ) :
    gridQ (extRun (fun _ => 1)) [(1, 0, 0), (1, 0, 0)] [-Real.pi, Real.pi] m = 1 := by
  simp only [gridQ, q_of_mup, q_numerator, q_denominator, dchisqOf, mean, zipWith3,
    trapz, trapzPairs, q_integrand, extRun, extOf]
  norm_num [Real.pi_ne_zero]

lemma gridQ_zero (m : ℝ) :
    gridQ (extRun (fun _ => 0)) [(1, 0, 0), (1, 0, 0)] [-Real.pi, Real.pi] m = 0 := by
  simp only [gridQ, q_of_mup, q_numerator, q_denominator, dchisqOf, mean, zipWith3,
    trapz, trapzPairs, q_integrand, extRun, extOf]
  norm_num

lemma clLoop_runHalf :
    clLoop (gridQ (extRun (fun _ => 1)) [(1, 0, 0), (1, 0, 0)] [-Real.pi, Real.pi])
      (extRun (fun _ => 1)).brenth 1 [1 / 2] 1 [] [] =
      ([Event.integration, Event.rootFind (1 / 2) 1], 1, .ok [0]) := by
  have hbr : (extRun (fun _ => (1 : ℝ))).brenth = fun _ _ _ => 0 := rfl
  have hq : gridQ (extRun (fun _ => (1 : ℝ))) [(1, (0 : ℝ × ℝ)), (1, 0)]
      [-Real.pi, Real.pi] 1 = 1 := gridQ_one 1
  norm_num [clLoop, doubling, hbr]
  norm_num [hq]

lemma clLoop_runC3 :
    clLoop (gridQ (extRun (fun _ => 1)) [(1, 0, 0), (1, 0, 0)] [-Real.pi, Real.pi])
      (extRun (fun _ => 1)).brenth 1 [1 / 2, 2] 1 [] [] =
      ([Event.integration, Event.rootFind (1 / 2) 1], 1, .error .assertConfidenceLevel) := by
  have hbr : (extRun (fun _ => (1 : ℝ))).brenth = fun _ _ _ => 0 := rfl
  have hq : gridQ (extRun (fun _ => (1 : ℝ))) [(1, (0 : ℝ × ℝ)), (1, 0)]
      [-Real.pi, Real.pi] 1 = 1 := gridQ_one 1
  norm_num [clLoop, doubling, hbr]
  norm_num [hq]

lemma clLoop_runC5 :
    clLoop (gridQ (extRun (fun _ => 0)) [(1, 0, 0), (1, 0, 0)] [-Real.pi, Real.pi])
      (extRun (fun _ => 0)).brenth 1 [0] 1 [] [] =
      ([Event.integration, Event.rootFind 0 1], 1, .ok [0]) := by
  have hbr : (extRun (fun _ => (0 : ℝ))).brenth = fun _ _ _ => 0 := rfl
  have hq : gridQ (extRun (fun _ => (0 : ℝ))) [(1, (0 : ℝ × ℝ)), (1, 0)]
      [-Real.pi, Real.pi] 1 = 0 := gridQ_zero 1
  norm_num [clLoop, doubling, hbr]
  norm_num [hq]

lemma run_C3 :
    UnseenPerturberMassUpperLimit (extRun (fun _ => 1)) 1 1 [1 / 2, 2] numW timeW uncW 2 1
      (some (0, 1)) =
      ([Event.estimatorCall (-Real.pi), Event.estimatorCall Real.pi, Event.integration,
        Event.rootFind (1 / 2) 1], .error .assertConfidenceLevel) := by
  unfold UnseenPerturberMassUpperLimit
  rw [linspace_two]
  dsimp only
  rw [estGrid_runW]
  dsimp only
  rw [clLoop_runC3]
  rfl

lemma run_C5 :
    UnseenPerturberMassUpperLimit (extRun (fun _ => 0)) 1 1 [0] numW timeW uncW 2 1
      (some (0, 1)) =
      ([Event.estimatorCall (-Real.pi), Event.estimatorCall Real.pi, Event.integration,
        Event.rootFind 0 1], .ok [0]) := by
  unfold UnseenPerturberMassUpperLimit
  rw [linspace_two]
  dsimp only
  rw [estGrid_runW]
  dsimp only
  rw [clLoop_runC5]
  rfl

/-! ## Claim C3 -/

/-- Counterexample to claim C3: with confidence levels `[1/2, 2]` (the
second one invalid) the call does reject, but partial computation has
already been performed before the rejection: the phase-grid estimator
evaluations, a phase integration, and the root-finding for the valid
level `1/2` all appear in the trace, so the rejection is not immediate. -/
theorem confidence_rejection_counterexample :
    (UnseenPerturberMassUpperLimit (extRun (fun _ => 1)) 1 1 [1 / 2, 2] numW timeW uncW 2 1
        (some (0, 1))).2 = .error .assertConfidenceLevel ∧
    (UnseenPerturberMassUpperLimit (extRun (fun _ => 1)) 1 1 [1 / 2, 2] numW timeW uncW 2 1
        (some (0, 1))).1 ≠ [] ∧
    Event.estimatorCall (-Real.pi) ∈
      (UnseenPerturberMassUpperLimit (extRun (fun _ => 1)) 1 1 [1 / 2, 2] numW timeW uncW 2 1
        (some (0, 1))).1 ∧
    Event.integration ∈
      (UnseenPerturberMassUpperLimit (extRun (fun _ => 1)) 1 1 [1 / 2, 2] numW timeW uncW 2 1
        (some (0, 1))).1 ∧
    Event.rootFind (1 / 2) 1 ∈
      (UnseenPerturberMassUpperLimit (extRun (fun _ => 1)) 1 1 [1 / 2, 2] numW timeW uncW 2 1
        (some (0, 1))).1 := by
  rw [run_C3]
  exact ⟨rfl, by simp, by simp, by simp, by simp⟩

/-- Claim C3 amended: a confidence-level sequence containing a value at or
above one is rejected at the first such level, with no integration and no
root-finding for that level or any later one; but the phase-grid estimator
evaluations are always performed first, and the limits for the valid levels
preceding the first invalid one are computed before the rejection (the
trace is exactly the grid events followed by the events of the prefix loop). -/
theorem confidence_rejection_after_grid (ext : Ext) (fuel : ℕ) (Ppert : ℝ)
    (pre post : List ℝ) (cl0 : ℝ) (num : List ℤ) (time unc : List ℝ) (Nphi : ℕ)
    (Mmax0 : ℝ) (pd : Option (ℝ × ℝ)) (gevs evs' : List Event) (rs : List (ℝ × ℝ × ℝ))
    (M' : ℝ) (ms : List ℝ)
    (h0 : 1 ≤ cl0)
    (hgrid : estGridAux ext Ppert num time unc pd (linspace (-Real.pi) Real.pi Nphi) =
      (gevs, .ok rs))
    (hpre : clLoop (gridQ ext rs (linspace (-Real.pi) Real.pi Nphi)) ext.brenth fuel pre
      Mmax0 [] [] = (evs', M', .ok ms)) :
    UnseenPerturberMassUpperLimit ext fuel Ppert (pre ++ cl0 :: post) num time unc Nphi
      Mmax0 pd = (gevs ++ evs', .error .assertConfidenceLevel) := by
  unfold UnseenPerturberMassUpperLimit
  dsimp only
  rw [hgrid]
  dsimp only
  rw [clLoop_append_invalid (gridQ ext rs (linspace (-Real.pi) Real.pi Nphi)) ext.brenth
    fuel cl0 h0 post pre Mmax0 [] [] evs' M' ms hpre]

/-- Witness for the amended C3 at a concrete run with levels `[1/2, 2]`. -/
theorem confidence_rejection_after_grid_witness :
    UnseenPerturberMassUpperLimit (extRun (fun _ => 1)) 1 1 ([1 / 2] ++ 2 :: []) numW timeW
      uncW 2 1 (some (0, 1)) =
      ([Event.estimatorCall (-Real.pi), Event.estimatorCall Real.pi] ++
        [Event.integration, Event.rootFind (1 / 2) 1], .error .assertConfidenceLevel) :=
  confidence_rejection_after_grid (extRun (fun _ => 1)) 1 1 [1 / 2] [] 2 numW timeW uncW 2 1
    (some (0, 1)) [Event.estimatorCall (-Real.pi), Event.estimatorCall Real.pi]
    [Event.integration, Event.rootFind (1 / 2) 1] [(1, 0, 0), (1, 0, 0)] 1 [0]
    (by norm_num)
    (by rw [linspace_two]; exact estGrid_runW _)
    (by rw [linspace_two]; exact clLoop_runHalf)

/-- Witness for C5 at a concrete run that reaches the root finder with
confidence level `0` and bracket endpoint `1`. -/
theorem rootfind_bracket_valid_witness :
    gridQ (extRun (fun _ => 0)) [(1, 0, 0), (1, 0, 0)] (linspace (-Real.pi) Real.pi 2) 0 =
      0 ∧
    gridQ (extRun (fun _ => 0)) [(1, 0, 0), (1, 0, 0)] (linspace (-Real.pi) Real.pi 2) 0 ≤
      0 ∧
    (0 : ℝ) ≤ gridQ (extRun (fun _ => 0)) [(1, 0, 0), (1, 0, 0)]
      (linspace (-Real.pi) Real.pi 2) 1 :=
  rootfind_bracket_valid (extRun (fun _ => 0)) 1 1 [0] numW timeW uncW 2 1 (some (0, 1))
    [Event.estimatorCall (-Real.pi), Event.estimatorCall Real.pi] [(1, 0, 0), (1, 0, 0)] 0 1
    (by rw [linspace_two]; exact estGrid_runW _)
    (by rw [run_C5]; simp)
    (by norm_num)
    (by intro x; simp [extRun, extOf])

/-! ## Claim C9 -/

lemma trapz_mono (y y' : List ℝ) : ∀ (x : List ℝ), List.Chain' (· ≤ ·) x →
    List.Forall₂ (· ≤ ·) y y' → trapz y x ≤ trapz y' x := by
  induction y using List.rec generalizing y' with
  | nil =>
    intro x hx hy
    cases hy
    exact le_refl _
  | cons y0 ytail ih =>
    intro x hx hy
    cases hy with
    | cons h0 htail =>
      rename_i y0' ytail'
      cases x with
      | nil => simp [trapz, trapzPairs]
      | cons x0 xs =>
        cases xs with
        | nil => simp [trapz, trapzPairs]
        | cons x1 xs' =>
          cases htail with
          | nil => simp [trapz, trapzPairs]
          | cons h1 htail2 =>
            rename_i y1 y1' yt yt'
            obtain ⟨hx01, hx'⟩ := List.chain'_cons.mp hx
            have hIH := ih (y1' :: yt') (x1 :: xs') hx' (List.Forall₂.cons h1 htail2)
            simp only [trapz, List.zip_eq_zipWith, List.zipWith_cons_cons, trapzPairs]
              at hIH ⊢
            have hterm : (x1 - x0) * (y0 + y1) / 2 ≤ (x1 - x0) * (y0' + y1') / 2 := by
              gcongr <;> linarith
            linarith

lemma zipWith3_forall2_le (f g : ℝ → ℝ → ℝ → ℝ) :
    ∀ (as bs cs : List ℝ),
      (∀ a b, (a, b) ∈ List.zip as bs → ∀ c, f a b c ≤ g a b c) →
      List.Forall₂ (· ≤ ·) (zipWith3 f as bs cs) (zipWith3 g as bs cs) := by
  intro as
  induction as with
  | nil =>
    intro bs cs h
    cases bs <;> cases cs <;> simp [zipWith3]
  | cons a as ih =>
    intro bs cs h
    cases bs with
    | nil => simp [zipWith3]
    | cons b bs =>
      cases cs with
      | nil => simp [zipWith3]
      | cons c cs =>
        rw [zipWith3, zipWith3]
        exact List.Forall₂.cons (h a b (by simp) c)
          (ih bs cs (fun a' b' hab c' => h a' b' (List.mem_cons_of_mem _ hab) c'))

lemma q_integrand_mono (ext : Ext) (herf : Monotone ext.erf) (mb s : ℝ) (hs : 0 < s)
    (hd : 0 < 1 + ext.erf (mb / s / Real.sqrt 2)) {m m' : ℝ} (hmm' : m ≤ m') :
    q_integrand ext m mb s ≤ q_integrand ext m' mb s := by
  simp only [q_integrand]
  have harg : (m - mb) / s / Real.sqrt 2 ≤ (m' - mb) / s / Real.sqrt 2 := by
    gcongr
  exact (div_le_div_iff_of_pos_right hd).mpr (add_le_add_left (herf harg) _)

lemma q_of_mup_mono (ext : Ext) (mbest sigma dchisq phases : List ℝ)
    (herf : Monotone ext.erf)
    (hphase : List.Chain' (· ≤ ·) phases)
    (hsig : ∀ s ∈ sigma, 0 < s)
    (hden : ∀ p ∈ List.zip mbest sigma, 0 < 1 + ext.erf (p.1 / p.2 / Real.sqrt 2))
    (hD : 0 < q_denominator dchisq phases) :
    Monotone (q_of_mup ext mbest sigma dchisq phases) := by
  intro m m' hmm'
  unfold q_of_mup
  rw [div_le_div_iff_of_pos_right hD]
  unfold q_numerator
  apply trapz_mono _ _ _ hphase
  apply zipWith3_forall2_le
  intro a b hab c
  have hs : 0 < b := hsig b (List.of_mem_zip hab).2
  have hd := hden (a, b) hab
  exact mul_le_mul_of_nonneg_right (q_integrand_mono ext herf a b hs hd hmm')
    (Real.exp_nonneg _)

/-- Claim C9: the mass upper limits produced by the limit solver are
monotonically non-decreasing in the requested confidence level: for the
marginal cumulative quantity `q` built from the per-phase estimator
outputs, exact roots `m1`, `m2` of `q(m) = cl1` and `q(m) = cl2` with
`cl1 < cl2 < 1` satisfy `m1 <= m2` (the scipy `brenth` returns such a root up
to its tolerance; the embedding takes the roots as exact). -/
theorem mass_limits_monotone_in_confidence (ext : Ext) (rs : List (ℝ × ℝ × ℝ))
    (phases : List ℝ) (cl1 cl2 m1 m2 : ℝ)
    (herf : Monotone ext.erf)
    (hphase : List.Chain' (· ≤ ·) phases)
    (hsig : ∀ r ∈ rs, 0 < r.2.1)
    (hden : ∀ r ∈ rs, 0 < 1 + ext.erf (r.1 / r.2.1 / Real.sqrt 2))
    (hD : 0 < q_denominator (dchisqOf (rs.map (·.2.2))) phases)
    (h12 : cl1 < cl2) (h2 : cl2 < 1)
    (hm1 : gridQ ext rs phases m1 = cl1)
    (hm2 : gridQ ext rs phases m2 = cl2) :
    m1 ≤ m2 := by
  have hsig' : ∀ s ∈ rs.map (·.2.1), 0 < s := by
    intro s hs
    obtain ⟨r, hr, rfl⟩ := List.mem_map.mp hs
    exact hsig r hr
  have hden' : ∀ p ∈ List.zip (rs.map (·.1)) (rs.map (·.2.1)),
      0 < 1 + ext.erf (p.1 / p.2 / Real.sqrt 2) := by
    intro p hp
    rw [List.zip_map'] at hp
    obtain ⟨r, hr, rfl⟩ := List.mem_map.mp hp
    exact hden r hr
  by_contra hcon
  push_neg at hcon
  have hmono := q_of_mup_mono ext (rs.map (·.1)) (rs.map (·.2.1))
    (dchisqOf (rs.map (·.2.2))) phases herf hphase hsig' hden' hD hcon.le
  have hle : gridQ ext rs phases m2 ≤ gridQ ext rs phases m1 := hmono
  rw [hm1, hm2] at hle
  linarith

/-- Collaborators for the C9 witness: erf is the identity function. -/
def extId : Ext := extOf (fun x => x) (fun _ => []) [] (fun _ _ _ => 0)

lemma gridQ_extId (m : ℝ) :
    gridQ extId [(0, 1, 0), (0, 1, 0)] [0, 1] m = m / Real.sqrt 2 := by
  simp only [gridQ, q_of_mup, q_numerator, q_denominator, dchisqOf, mean, zipWith3,
    trapz, trapzPairs, q_integrand, extId, extOf, List.zip_eq_zipWith,
    List.zipWith_cons_cons]
  norm_num

/-- Witness for C9 at a concrete grid where `q(m) = m / sqrt 2`: the exact
roots for confidence levels `0` and `1/2` are `0` and `sqrt 2 / 2`, and the
theorem orders them. -/
theorem mass_limits_monotone_in_confidence_witness : (0 : ℝ) ≤ Real.sqrt 2 / 2 :=
  mass_limits_monotone_in_confidence extId [(0, 1, 0), (0, 1, 0)] [0, 1] 0 (1 / 2) 0
    (Real.sqrt 2 / 2)
    (fun _ _ h => h)
    (by simp [List.chain'_cons])
    (by norm_num [List.forall_mem_cons])
    (by norm_num [List.forall_mem_cons, extId, extOf])
    (by norm_num [q_denominator, dchisqOf, mean, trapz, trapzPairs, List.zip_eq_zipWith,
      List.zipWith_cons_cons])
    (by norm_num) (by norm_num)
    (by rw [gridQ_extId]; norm_num)
    (by
      rw [gridQ_extId]
      have h2 : Real.sqrt 2 ≠ 0 := by positivity
      field_simp
      ring)

end

end CompanionLimits
